import Mathlib

/-
  Verification of the inverted-index retrieval engine in src/collection.py.

  The embedding models the Collection class as a record of four association
  lists: the two in-memory tables (self.index, self.documents) and the two
  mongo collections (invertedIndex, documents).  Python dicts preserve
  insertion order, so association lists are a faithful model; real-valued
  quantities (norms, idf, scores) are modelled over the reals.  Lean's total
  real division (x / 0 = 0) stands in for Python float division at the one
  spot where Python would raise ZeroDivisionError (empty store); no theorem
  below depends on that spot.  Raising methods are modelled with Except.
-/

abbrev Doc : Type := String

abbrev Term : Type := String

/-- In-memory inverted index: term to (document to count), in insertion
order, as built by InvertedIndex (a defaultdict of dict). -/
abbrev InvIndex : Type := List (Term × List (Doc × Nat))

/-- Association-list lookup by key: first pair whose key matches (Python
dict access, mongo find_one on a keyed field). -/
def lookupFst {β : Type} : List (String × β) → String → Option β
  | [], _ => none
  | (k, v) :: rest, x => if k = x then some v else lookupFst rest x

/-- Set a key in an inner document-to-count dict: overwrite if present,
else append (Python dict assignment). -/
def setDoc : List (Doc × Nat) → Doc → Nat → List (Doc × Nat)
  | [], d, c => [(d, c)]
  | (d', c') :: rest, d, c =>
      if d' = d then (d', c) :: rest else (d', c') :: setDoc rest d c

/-- The assignment self[term][d] = count on the defaultdict: vivify the
term entry if missing, then set the document's count. -/
def setPosting : InvIndex → Term → Doc → Nat → InvIndex
  | [], t, d, c => [(t, [(d, c)])]
  | (t', ds) :: rest, t, d, c =>
      if t' = t then (t', setDoc ds d c) :: rest
      else (t', ds) :: setPosting rest t d c

/-- InvertedIndex.add_document: for each (term, count) of the tokenized
document record the posting and accumulate l_d (adding 1 when count = 1,
else (1 + ln count)^2); returns the updated index and sqrt l_d. -/
noncomputable def InvertedIndex.add_document (idx : InvIndex) (d : Doc)
    (tl : List (Term × Nat)) : InvIndex × ℝ :=
  let step := tl.foldl
    (fun (acc : InvIndex × ℝ) p =>
      (setPosting acc.1 p.1 d p.2,
       acc.2 + if p.2 = 1 then 1 else (1 + Real.log p.2) ^ 2))
    (idx, 0)
  (step.1, Real.sqrt step.2)

/-- The Collection state: the two in-memory tables plus the contents of the
two mongo collections named by mongo_collections. -/
structure Collection : Type where
  index : InvIndex
  documents : List (Doc × ℝ)
  storeIndex : InvIndex
  storeDocs : List (Doc × ℝ)

/-- A fresh Collection over an empty store (Collection.__init__ with empty
mongo collections). -/
def Collection.start : Collection := ⟨[], [], [], []⟩

/-- Mongo update with push $each, upsert=True, keyed on term: append the
new document entries to the (single) record of that term, or create the
record at the end of the collection. -/
def pushTerm : InvIndex → Term → List (Doc × Nat) → InvIndex
  | [], t, mdocs => [(t, mdocs)]
  | (t', ds) :: rest, t, mdocs =>
      if t' = t then (t', ds ++ mdocs) :: rest
      else (t', ds) :: pushTerm rest t mdocs

/-- Collection.flush_to_mongo: when both in-memory tables are non-empty,
push every posting list into the invertedIndex collection and insert_many
the norm records into the documents collection; in every case clear both
in-memory tables. -/
def Collection.flush_to_mongo (st : Collection) : Collection :=
  if ¬st.index.isEmpty ∧ ¬st.documents.isEmpty then
    { index := [],
      documents := [],
      storeIndex := st.index.foldl (fun acc p => pushTerm acc p.1 p.2) st.storeIndex,
      storeDocs := st.storeDocs ++ st.documents }
  else
    { st with index := [], documents := [] }

/-- Collection.get_documents_count: count() of the invertedIndex mongo
collection (one record per distinct flushed term). -/
def Collection.get_documents_count (st : Collection) : Nat × Collection :=
  (st.storeIndex.length, st)

/-- Collection.get_index_count: count() of the documents mongo collection
(one record per flushed norm entry). -/
def Collection.get_index_count (st : Collection) : Nat × Collection :=
  (st.storeDocs.length, st)

/-- Collection.get_documents_for_term: find_one on the invertedIndex
collection; raises when the term has no record. -/
def Collection.get_documents_for_term (st : Collection) (t : Term) :
    Except String (List (Doc × Nat) × Collection) :=
  match lookupFst st.storeIndex t with
  | some docs => .ok (docs, st)
  | none => .error ("Term \x27" ++ t ++ "\x27 does not exist in our inverted index.")

/-- Collection.get_only_documents_for_term: the set of document identities
for a term, empty when the term has no record. -/
def Collection.get_only_documents_for_term (st : Collection) (t : Term) :
    Finset Doc × Collection :=
  match lookupFst st.storeIndex t with
  | some docs => ((docs.map Prod.fst).toFinset, st)
  | none => (∅, st)

/-- Collection.get_documents_not_in: find over the documents mongo
collection with doc $nin the excluded set, returned as a set. -/
def Collection.get_documents_not_in (st : Collection) (s : Finset Doc) :
    Finset Doc × Collection :=
  ((st.storeDocs.map Prod.fst).toFinset \ s, st)

/-- Collection.get_document_L_d: find_one on the documents mongo
collection; raises when the document has no record. -/
def Collection.get_document_L_d (st : Collection) (d : Doc) :
    Except String (ℝ × Collection) :=
  match lookupFst st.storeDocs d with
  | some L => .ok (L, st)
  | none => .error ("Document \x27" ++ d ++ "\x27 does not exist in our collection.")

/-- Collection.read_document: if the document is not yet in self.documents,
add it to the inverted index and record its L_d.  The external tokenizer
(document.textpreprocess, not part of the core) is passed as tok. -/
noncomputable def Collection.read_document (st : Collection)
    (tok : Doc → List (Term × Nat)) (d : Doc) : Collection :=
  if (lookupFst st.documents d).isSome then st
  else
    let r := InvertedIndex.add_document st.index d (tok d)
    { st with index := r.1, documents := st.documents ++ [(d, r.2)] }

/-- The rest_documents closure inside processquery_boolean: the keys of the
in-memory self.documents table minus the given set. -/
def Collection.rest_documents (st : Collection) (s : Finset Doc) :
    Finset Doc × Collection :=
  ((st.documents.map Prod.fst).toFinset \ s, st)

/-- Modelled from the spec: the query grammar of the external boolean
expression evaluator (boolean_expression_parse.py is not under src/) —
AND, OR, NOT and plain terms, already tokenized/normalized. -/
inductive BoolQuery : Type where
  | term (t : Term)
  | and (a b : BoolQuery)
  | or (a b : BoolQuery)
  | not (a : BoolQuery)

/-- Modelled from the spec: the external evaluator's set algebra — AND is
intersection, OR is union, NOT calls the complement primitive; a plain term
calls the term-documents primitive.  The two primitives are exactly the
ones processquery_boolean supplies, with the Collection state threaded. -/
def evalQueryS (st : Collection) : BoolQuery → Finset Doc × Collection
  | .term t => st.get_only_documents_for_term t
  | .and a b =>
      let ra := evalQueryS st a
      let rb := evalQueryS ra.2 b
      (ra.1 ∩ rb.1, rb.2)
  | .or a b =>
      let ra := evalQueryS st a
      let rb := evalQueryS ra.2 b
      (ra.1 ∪ rb.1, rb.2)
  | .not a =>
      let ra := evalQueryS st a
      ra.2.rest_documents ra.1

/-- Collection.processquery_boolean: hand the two primitives to the
external evaluator and return its set-algebra result. -/
def Collection.processquery_boolean (st : Collection) (q : BoolQuery) :
    Finset Doc × Collection :=
  evalQueryS st q

/-- defaultdict(float) accumulation S[d] += x: add into the existing entry
or append a new one (default 0.0). -/
noncomputable def bump (S : List (Doc × ℝ)) (d : Doc) (x : ℝ) : List (Doc × ℝ) :=
  match S with
  | [] => [(d, x)]
  | (d', v) :: rest => if d' = d then (d', v + x) :: rest else (d', v) :: bump rest d x

/-- The idf weight computed inside the per-term loop of
processquery_vector: ln(1 + get_documents_count() / get_index_count()). -/
noncomputable def idf_t (st : Collection) : ℝ :=
  Real.log (1 + ((st.get_documents_count).1 : ℝ) / ((st.get_index_count).1 : ℝ))

/-- The first loop of processquery_vector: for each query token compute the
idf, fetch the term's postings (raising on an unknown term) and add
count * idf into each posted document's score. -/
noncomputable def accumulateScores :
    Collection → List Term → List (Doc × ℝ) → Except String (List (Doc × ℝ) × Collection)
  | st, [], S => .ok (S, st)
  | st, t :: ts, S =>
      let dc := st.get_documents_count
      let ic := dc.2.get_index_count
      let idf := Real.log (1 + (dc.1 : ℝ) / (ic.1 : ℝ))
      match ic.2.get_documents_for_term t with
      | .error e => .error e
      | .ok (docs, st') =>
          accumulateScores st' ts
            (docs.foldl (fun acc e => bump acc e.1 ((e.2 : ℝ) * idf)) S)

/-- The second loop of processquery_vector: divide each accumulated score
by the document's stored L_d (raising when the norm record is missing). -/
noncomputable def normalizeScores :
    Collection → List (Doc × ℝ) → Except String (List (Doc × ℝ) × Collection)
  | st, [] => .ok ([], st)
  | st, p :: rest =>
      match st.get_document_L_d p.1 with
      | .error e => .error e
      | .ok (L, st') =>
          match normalizeScores st' rest with
          | .error e => .error e
          | .ok (tail, st'') => .ok ((p.1, p.2 / L) :: tail, st'')

/-- One insertion step of sorting by descending score. -/
noncomputable def insertDesc (p : Doc × ℝ) : List (Doc × ℝ) → List (Doc × ℝ)
  | [] => [p]
  | q :: rest => if q.2 ≤ p.2 then p :: q :: rest else q :: insertDesc p rest

/-- Sort by descending score; heapq.nlargest(n, xs, key) is documented as
sorted(xs, key=key, reverse=True) truncated to n elements, which this
realizes together with List.take. -/
noncomputable def sortDesc : List (Doc × ℝ) → List (Doc × ℝ)
  | [] => []
  | p :: rest => insertDesc p (sortDesc rest)

/-- The final two lines of processquery_vector: keep scores ≥ above when
above > 0, then either return all kept entries (top < 0) or the top
largest by score. -/
noncomputable def selectResults (S : List (Doc × ℝ)) (above : ℝ) (top : ℤ) :
    List (Doc × ℝ) :=
  let passed := if 0 < above then S.filter (fun p => decide (above ≤ p.2)) else S
  if top < 0 then passed else (sortDesc passed).take top.toNat

/-- Collection.processquery_vector on an already-tokenized query (the
external textpreprocess is applied to the raw string before this logic):
accumulate tf-idf scores, normalize by L_d, filter and rank. -/
noncomputable def Collection.processquery_vector (st : Collection)
    (qTokens : List Term) (above : ℝ) (top : ℤ) :
    Except String (List (Doc × ℝ) × Collection) :=
  match accumulateScores st qTokens [] with
  | .error e => .error e
  | .ok (S, st') =>
      match normalizeScores st' S with
      | .error e => .error e
      | .ok (Sn, st'') => .ok (selectResults Sn above top, st'')

/-- The per-term weight of the norm accumulation: 1 for a count of 1,
(1 + ln count)^2 otherwise. -/
noncomputable def termWeight (c : Nat) : ℝ :=
  if c = 1 then 1 else (1 + Real.log c) ^ 2

/-- The scoring loop of processquery_vector with one fixed idf weight
applied to every query term (the spec's reading, in which the weight is
constant across the query's terms in a fixed corpus state); for comparison
with accumulateScores, which recomputes the weight inside the loop. -/
noncomputable def accumulateScoresConstIdf (idf : ℝ) :
    Collection → List Term → List (Doc × ℝ) → Except String (List (Doc × ℝ) × Collection)
  | st, [], S => .ok (S, st)
  | st, t :: ts, S =>
      match st.get_documents_for_term t with
      | .error e => .error e
      | .ok (docs, st') =>
          accumulateScoresConstIdf idf st' ts
            (docs.foldl (fun acc e => bump acc e.1 ((e.2 : ℝ) * idf)) S)

/-- A concrete tokenizer: document d1 holds the terms a and b once each;
every other document is empty. -/
def tokAB : Doc → List (Term × Nat) :=
  fun d => if d = "d1" then [("a", 1), ("b", 1)] else []

/-- The state after reading document d1 and flushing: one flushed
document, two distinct flushed terms. -/
noncomputable def stAB : Collection :=
  (Collection.start.read_document tokAB "d1").flush_to_mongo

/-- A tokenizer under which every document has no tokens. -/
def tokEmpty : Doc → List (Term × Nat) := fun _ => []

/-- The state after reading a document with no tokens: the norm table
holds one entry while the posting table is empty. -/
noncomputable def stEmptyTok : Collection :=
  Collection.start.read_document tokEmpty "d0"

/-- Every posting entry of the given index names a document with a
non-empty tokenization and a record in the given norm table. -/
def PostingsCovered (tok : Doc → List (Term × Nat)) (idx : InvIndex)
    (norms : List (Doc × ℝ)) : Prop :=
  ∀ p, p ∈ idx → ∀ e, e ∈ p.2 → tok e.1 ≠ [] ∧ (lookupFst norms e.1).isSome

/-- Every record of the given norm table is for a document with no tokens
or carries a norm of at least 1. -/
def NormsSound (tok : Doc → List (Term × Nat)) (norms : List (Doc × ℝ)) : Prop :=
  ∀ q, q ∈ norms → tok q.1 = [] ∨ 1 ≤ q.2

/-- The store-and-memory invariant maintained by ingestion and flushing. -/
def StoreInv (tok : Doc → List (Term × Nat)) (st : Collection) : Prop :=
  PostingsCovered tok st.storeIndex st.storeDocs
  ∧ NormsSound tok st.storeDocs
  ∧ PostingsCovered tok st.index st.documents
  ∧ NormsSound tok st.documents

/-- States reachable from a fresh Collection by read_document calls whose
tokenizations have all counts at least 1, and by flushes. -/
inductive Reachable (tok : Doc → List (Term × Nat)) : Collection → Prop where
  | base : Reachable tok Collection.start
  | read (st : Collection) (d : Doc) (h : Reachable tok st)
      (hc : ∀ p ∈ tok d, 1 ≤ p.2) : Reachable tok (st.read_document tok d)
  | flush (st : Collection) (h : Reachable tok st) :
      Reachable tok st.flush_to_mongo

lemma lookupFst_mem {β : Type} : ∀ {l : List (String × β)} {k : String} {v : β},
    lookupFst l k = some v → (k, v) ∈ l
  | [], _, _, h => by simp [lookupFst] at h
  | (k', v') :: rest, k, v, h => by
      simp only [lookupFst] at h
      split at h
      · next heq => cases h; subst heq; exact List.mem_cons_self _ _
      · next => exact List.mem_cons_of_mem _ (lookupFst_mem h)

lemma lookupFst_append_some {β : Type} : ∀ {l₁ : List (String × β)}
    (l₂ : List (String × β)) {k : String} {v : β},
    lookupFst l₁ k = some v → lookupFst (l₁ ++ l₂) k = some v
  | [], _, _, _, h => by simp [lookupFst] at h
  | (k', v') :: rest, l₂, k, v, h => by
      simp only [lookupFst] at h ⊢
      split at h
      · next heq => rw [if_pos heq]; exact h
      · next hne => rw [if_neg hne]; exact lookupFst_append_some l₂ h

lemma lookupFst_append_none {β : Type} : ∀ {l₁ : List (String × β)}
    (l₂ : List (String × β)) {k : String},
    lookupFst l₁ k = none → lookupFst (l₁ ++ l₂) k = lookupFst l₂ k
  | [], _, _, _ => by simp [lookupFst]
  | (k', v') :: rest, l₂, k, h => by
      simp only [lookupFst] at h ⊢
      split at h
      · next => exact absurd h (by simp)
      · next hne => rw [if_neg hne]; exact lookupFst_append_none l₂ h

lemma lookupFst_append_isSome_left {β : Type} {l₁ l₂ : List (String × β)}
    {k : String} (h : (lookupFst l₁ k).isSome) :
    (lookupFst (l₁ ++ l₂) k).isSome := by
  obtain ⟨v, hv⟩ := Option.isSome_iff_exists.mp h
  rw [lookupFst_append_some l₂ hv]; rfl

lemma lookupFst_append_isSome_right {β : Type} {l₁ l₂ : List (String × β)}
    {k : String} (h : (lookupFst l₂ k).isSome) :
    (lookupFst (l₁ ++ l₂) k).isSome := by
  cases hv : lookupFst l₁ k with
  | some v => rw [lookupFst_append_some l₂ hv]; rfl
  | none => rw [lookupFst_append_none l₂ hv]; exact h

lemma get_documents_for_term_ok {st : Collection} {t : Term}
    {docs : List (Doc × Nat)} {st' : Collection}
    (h : st.get_documents_for_term t = .ok (docs, st')) :
    st' = st ∧ lookupFst st.storeIndex t = some docs := by
  unfold Collection.get_documents_for_term at h
  split at h
  · next ds heq => cases h; exact ⟨rfl, heq⟩
  · next => cases h

lemma get_document_L_d_ok {st : Collection} {d : Doc} {L : ℝ} {st' : Collection}
    (h : st.get_document_L_d d = .ok (L, st')) :
    st' = st ∧ lookupFst st.storeDocs d = some L := by
  unfold Collection.get_document_L_d at h
  split at h
  · next r heq => cases h; exact ⟨rfl, heq⟩
  · next => cases h

lemma stAB_eq :
    stAB = ⟨[], [], [("a", [("d1", 1)]), ("b", [("d1", 1)])], [("d1", Real.sqrt 2)]⟩ := by
  simp [stAB, Collection.start, Collection.read_document, Collection.flush_to_mongo,
    InvertedIndex.add_document, setPosting, setDoc, lookupFst, pushTerm, tokAB]
  norm_num

/-- Claim C2: the code returns the number of distinct flushed terms from
get_documents_count and the number of flushed documents from
get_index_count — the two accessors are wired to the wrong mongo
collections.  After flushing exactly one document holding two distinct
terms, get_documents_count answers 2 and get_index_count answers 1,
contradicting the claimed meanings (1 document, 2 terms). -/
theorem c2_corpus_counts_swapped :
    (stAB.get_documents_count).1 = 2 ∧ (stAB.get_index_count).1 = 1 := by
  rw [stAB_eq]; exact ⟨rfl, rfl⟩

/-- Claim C7: read_document is a no-op for a document already present in
the norm table: both in-memory tables (and the store) are unchanged. -/
theorem c7_read_document_idempotent (st : Collection)
    (tok : Doc → List (Term × Nat)) (d : Doc)
    (h : (lookupFst st.documents d).isSome) :
    st.read_document tok d = st := by
  simp [Collection.read_document, h]

/-- Witness for C7 at a concrete state with document d0 already known. -/
theorem c7_read_document_idempotent_witness :
    Collection.read_document ⟨[], [("d0", (1 : ℝ))], [], []⟩ (fun _ => []) "d0"
      = ⟨[], [("d0", (1 : ℝ))], [], []⟩ :=
  c7_read_document_idempotent _ _ _ (by simp [lookupFst])

/-- Claim C5: flush_to_mongo silently drops data when exactly one
in-memory table is non-empty: after reading a document with no tokens the
norm table holds one record and the posting table is empty, and the flush
writes nothing to the store while still clearing the norm table. -/
theorem c5_flush_drops_lone_norm_record :
    stEmptyTok.documents = [("d0", Real.sqrt 0)]
    ∧ stEmptyTok.index = []
    ∧ stEmptyTok.flush_to_mongo.storeDocs = []
    ∧ stEmptyTok.flush_to_mongo.storeIndex = []
    ∧ stEmptyTok.flush_to_mongo.documents = [] := by
  refine ⟨?_, ?_, ?_, ?_, ?_⟩ <;>
    simp [stEmptyTok, Collection.start, Collection.read_document,
      Collection.flush_to_mongo, InvertedIndex.add_document, lookupFst, tokEmpty]

/-- Claim C4: the complement primitive handed to the boolean evaluator is
computed from the in-memory norm table, which is empty after a flush — it
answers the empty set although the store holds an indexed document, while
the (unused) store-backed get_documents_not_in answers correctly; a NOT
query over the flushed corpus therefore returns no documents. -/
theorem c4_complement_computed_on_memory_not_store :
    (stAB.rest_documents ∅).1 = (∅ : Finset Doc)
    ∧ (stAB.get_documents_not_in ∅).1 = {"d1"}
    ∧ (stAB.processquery_boolean (BoolQuery.not (BoolQuery.term "zzz"))).1
        = (∅ : Finset Doc) := by
  refine ⟨?_, ?_, ?_⟩ <;>
    simp [stAB_eq, Collection.rest_documents, Collection.get_documents_not_in,
      Collection.processquery_boolean, evalQueryS,
      Collection.get_only_documents_for_term, lookupFst]

/-- Claim C1: processquery_vector raises on a query term that was never
indexed, because it fetches postings through the raising lookup
get_documents_for_term instead of the non-raising variant. -/
theorem c1_vector_query_raises_on_unknown_term :
    stAB.processquery_vector ["zzz"] (2 / 10) (-1)
      = Except.error ("Term \x27zzz\x27 does not exist in our inverted index.") := by
  simp [stAB_eq, Collection.processquery_vector, accumulateScores,
    Collection.get_documents_count, Collection.get_index_count,
    Collection.get_documents_for_term, lookupFst]

/-- Claim C3 counterexample: in a corpus state with 1 flushed document and
2 distinct flushed terms, the idf weight the code computes is
ln(1 + 2/1) = ln 3, not the claimed ln(1 + D/T) = ln(1 + 1/2). -/
theorem c3_idf_uses_terms_over_documents :
    stAB.storeDocs.length = 1 ∧ stAB.storeIndex.length = 2
    ∧ idf_t stAB = Real.log 3
    ∧ idf_t stAB ≠ Real.log (1 + (1 : ℝ) / 2) := by
  have h3 : idf_t stAB = Real.log 3 := by
    rw [stAB_eq]
    simp [idf_t, Collection.get_documents_count, Collection.get_index_count]
    norm_num
  refine ⟨by rw [stAB_eq]; rfl, by rw [stAB_eq]; rfl, h3, ?_⟩
  rw [h3]
  exact (Real.log_lt_log (by norm_num) (by norm_num)).ne'

/-- Claim C3 amended: the idf weight applied by the scoring loop is
ln(1 + T/D) with T the record count of the invertedIndex collection
(distinct terms ever flushed) and D the record count of the documents
collection (norm records ever flushed) — the two counts the spec names are
swapped — and the loop applies this one value to every query term: the
loop is extensionally the fixed-idf loop run with idf_t of the initial
state. -/
theorem c3_amended_constant_swapped_idf (st : Collection) (q : List Term)
    (S : List (Doc × ℝ)) :
    idf_t st = Real.log (1 + (st.storeIndex.length : ℝ) / (st.storeDocs.length : ℝ))
    ∧ accumulateScores st q S = accumulateScoresConstIdf (idf_t st) st q S := by
  refine ⟨rfl, ?_⟩
  induction q generalizing S with
  | nil => rfl
  | cons t ts ih =>
      rw [accumulateScores, accumulateScoresConstIdf]
      cases h : st.get_documents_for_term t with
      | error e =>
          simp only [Collection.get_documents_count, Collection.get_index_count] at h ⊢
          rw [h]
      | ok p =>
          obtain ⟨docs, st'⟩ := p
          obtain ⟨hst, -⟩ := get_documents_for_term_ok h
          subst hst
          simp only [Collection.get_documents_count, Collection.get_index_count,
            idf_t] at h ⊢
          rw [h]
          exact ih _

lemma add_document_eq (idx : InvIndex) (d : Doc) (tl : List (Term × Nat)) :
    InvertedIndex.add_document idx d tl =
      (tl.foldl (fun i p => setPosting i p.1 d p.2) idx,
       Real.sqrt ((tl.map fun p => termWeight p.2).sum)) := by
  have key : ∀ (tl : List (Term × Nat)) (idx : InvIndex) (a : ℝ),
      tl.foldl (fun (acc : InvIndex × ℝ) p =>
          (setPosting acc.1 p.1 d p.2,
           acc.2 + if p.2 = 1 then 1 else (1 + Real.log p.2) ^ 2)) (idx, a)
        = (tl.foldl (fun i p => setPosting i p.1 d p.2) idx,
           a + (tl.map fun p => termWeight p.2).sum) := by
    intro tl
    induction tl with
    | nil => intro idx a; simp
    | cons p ps ih =>
        intro idx a
        simp only [List.foldl_cons, List.map_cons, List.sum_cons]
        rw [ih]
        refine Prod.ext rfl ?_
        simp [termWeight, add_assoc]
  simp only [InvertedIndex.add_document]
  rw [key]
  simp

lemma sum_map_weights_all_one : ∀ (tl : List (Term × Nat)),
    (∀ p ∈ tl, p.2 = 1) → ((tl.map fun p => termWeight p.2).sum : ℝ) = tl.length
  | [], _ => by simp
  | p :: ps, h => by
      simp only [List.map_cons, List.sum_cons, List.length_cons]
      rw [sum_map_weights_all_one ps (fun q hq => h q (List.mem_cons_of_mem _ hq)),
        show termWeight p.2 = 1 from by
          simp [termWeight, h p (List.mem_cons_self _ _)]]
      push_cast
      ring

/-- Claim C6: add_document returns L_d = sqrt of the sum of the per-term
weights (1 for count 1, (1 + ln count)^2 otherwise); when every count is 1
this is sqrt of the number of distinct tokens, and for a single token with
count c > 1 it is 1 + ln c. -/
theorem c6_add_document_norm (idx : InvIndex) (d : Doc) (tl : List (Term × Nat))
    (h : ∀ p ∈ tl, 1 ≤ p.2) :
    (InvertedIndex.add_document idx d tl).2
        = Real.sqrt ((tl.map fun p => termWeight p.2).sum)
    ∧ ((∀ p ∈ tl, p.2 = 1) →
        (InvertedIndex.add_document idx d tl).2 = Real.sqrt tl.length)
    ∧ (∀ t c, tl = [(t, c)] → 1 < c →
        (InvertedIndex.add_document idx d tl).2 = 1 + Real.log c) := by
  rw [add_document_eq]
  refine ⟨rfl, ?_, ?_⟩
  · intro hall
    rw [sum_map_weights_all_one tl hall]
  · intro t c htl hc
    subst htl
    simp only [List.map_cons, List.map_nil, List.sum_cons, List.sum_nil, add_zero]
    rw [show termWeight c = (1 + Real.log c) ^ 2 from by
      simp only [termWeight]; rw [if_neg (by omega)]]
    have hlog : (0 : ℝ) ≤ Real.log c :=
      Real.log_nonneg (by exact_mod_cast Nat.one_le_iff_ne_zero.mpr (by omega))
    exact Real.sqrt_sq (by linarith)

/-- Witness for C6: a single token with count 2 yields L_d = 1 + ln 2. -/
theorem c6_add_document_norm_witness :
    (InvertedIndex.add_document [] "d0" [("a", 2)]).2 = 1 + Real.log 2 := by
  have h := (c6_add_document_norm [] "d0" [("a", 2)] (by decide)).2.2 "a" 2 rfl
    (by decide)
  simpa using h

lemma mem_insertDesc (p : Doc × ℝ) : ∀ (l : List (Doc × ℝ)) (q : Doc × ℝ),
    q ∈ insertDesc p l ↔ q = p ∨ q ∈ l := by
  intro l
  induction l with
  | nil => intro q; simp [insertDesc]
  | cons r rest ih =>
      intro q
      rw [insertDesc]
      split
      · next => simp [List.mem_cons]
      · next => rw [List.mem_cons, ih, List.mem_cons]; tauto

lemma length_insertDesc (p : Doc × ℝ) : ∀ (l : List (Doc × ℝ)),
    (insertDesc p l).length = l.length + 1 := by
  intro l
  induction l with
  | nil => simp [insertDesc]
  | cons r rest ih =>
      rw [insertDesc]
      split
      · next => simp
      · next => simp [ih]

lemma mem_sortDesc : ∀ (l : List (Doc × ℝ)) (q : Doc × ℝ),
    q ∈ sortDesc l ↔ q ∈ l
  | [], q => by simp [sortDesc]
  | p :: rest, q => by
      rw [sortDesc, mem_insertDesc, mem_sortDesc rest q, List.mem_cons]

lemma pairwise_insertDesc (p : Doc × ℝ) {l : List (Doc × ℝ)}
    (hp : l.Pairwise (fun a b : Doc × ℝ => b.2 ≤ a.2)) :
    (insertDesc p l).Pairwise (fun a b : Doc × ℝ => b.2 ≤ a.2) := by
  induction l with
  | nil => simp [insertDesc]
  | cons r rest ih =>
      obtain ⟨hr, hrest⟩ := List.pairwise_cons.mp hp
      rw [insertDesc]
      split
      · next hle =>
          refine List.pairwise_cons.mpr ⟨?_, hp⟩
          intro b hb
          rcases List.mem_cons.mp hb with rfl | hb'
          · exact hle
          · exact le_trans (hr b hb') hle
      · next hgt =>
          refine List.pairwise_cons.mpr ⟨?_, ih hrest⟩
          intro b hb
          rcases (mem_insertDesc p rest b).mp hb with rfl | hb'
          · exact le_of_not_le hgt
          · exact hr b hb'

lemma pairwise_sortDesc : ∀ (l : List (Doc × ℝ)),
    (sortDesc l).Pairwise (fun a b : Doc × ℝ => b.2 ≤ a.2)
  | [] => by simp [sortDesc]
  | p :: rest => by rw [sortDesc]; exact pairwise_insertDesc p (pairwise_sortDesc rest)

/-- Claim C8: at the filtering/ranking stage of processquery_vector (the
function selectResults applied to the normalized score list): with
above > 0 and top = -1 the result holds exactly the scored entries with
score at least above; with above ≤ 0 and top = -1 every scored entry is
kept; with top = K ≥ 0 the result has at most K entries, each of which is
an entry of the top = -1 result, and every kept entry left out scores no
higher than any returned entry. -/
theorem c8_filter_and_top (S : List (Doc × ℝ)) (above : ℝ) (top : ℤ) :
    (0 < above → ∀ p, p ∈ selectResults S above (-1) ↔ p ∈ S ∧ above ≤ p.2)
    ∧ (above ≤ 0 → selectResults S above (-1) = S)
    ∧ (0 ≤ top → (selectResults S above top).length ≤ top.toNat
        ∧ (∀ p ∈ selectResults S above top, p ∈ selectResults S above (-1))
        ∧ (∀ p ∈ selectResults S above top, ∀ r ∈ selectResults S above (-1),
            r ∉ selectResults S above top → r.2 ≤ p.2)) := by
  have hneg : selectResults S above (-1)
      = (if 0 < above then S.filter (fun p => decide (above ≤ p.2)) else S) := by
    simp only [selectResults]
    rw [if_pos (by norm_num : (-1 : ℤ) < 0)]
  have htop : 0 ≤ top → selectResults S above top
      = (sortDesc (if 0 < above then S.filter (fun p => decide (above ≤ p.2)) else S)).take
          top.toNat := by
    intro ht
    simp only [selectResults]
    rw [if_neg (not_lt.mpr ht)]
  refine ⟨?_, ?_, ?_⟩
  · intro ha p
    rw [hneg, if_pos ha, List.mem_filter, decide_eq_true_eq]
  · intro ha
    rw [hneg, if_neg (not_lt.mpr ha)]
  · intro ht
    rw [htop ht, hneg]
    refine ⟨List.length_take_le _ _, ?_, ?_⟩
    · intro p hp
      exact (mem_sortDesc _ _).mp (List.mem_of_mem_take hp)
    · intro p hp r hr hnr
      have hsorted := pairwise_sortDesc
        (if 0 < above then S.filter (fun p => decide (above ≤ p.2)) else S)
      have hdecomp := (List.take_append_drop top.toNat (sortDesc
        (if 0 < above then S.filter (fun p => decide (above ≤ p.2)) else S))).symm
      rw [hdecomp] at hsorted
      obtain ⟨-, -, hcross⟩ := List.pairwise_append.mp hsorted
      have hrs : r ∈ sortDesc
          (if 0 < above then S.filter (fun p => decide (above ≤ p.2)) else S) :=
        (mem_sortDesc _ _).mpr hr
      rw [hdecomp] at hrs
      rcases List.mem_append.mp hrs with h | h
      · exact absurd h hnr
      · exact hcross p hp r h

/-- Witness for C8: with scores a at 1 and b at 2 over threshold 3/2, the
entry for b passes the filter, and top = 1 returns at most one entry. -/
theorem c8_filter_and_top_witness :
    (("b", (2 : ℝ)) ∈ selectResults [("a", (1 : ℝ)), ("b", 2)] (3 / 2) (-1))
    ∧ (selectResults [("a", (1 : ℝ)), ("b", 2)] (3 / 2) 1).length ≤ 1 := by
  obtain ⟨h1, h2, h3⟩ := c8_filter_and_top [("a", (1 : ℝ)), ("b", 2)] (3 / 2) 1
  constructor
  · exact (h1 (by norm_num) _).mpr ⟨by simp, by norm_num⟩
  · have h := (h3 (by norm_num)).1
    simpa using h

lemma setDoc_entries : ∀ (ds : List (Doc × Nat)) (d : Doc) (c : Nat)
    (e : Doc × Nat), e ∈ setDoc ds d c → e ∈ ds ∨ e.1 = d := by
  intro ds
  induction ds with
  | nil =>
      intro d c e he
      simp only [setDoc, List.mem_singleton] at he
      exact Or.inr (by rw [he])
  | cons q rest ih =>
      intro d c e he
      obtain ⟨d', c'⟩ := q
      simp only [setDoc] at he
      split at he
      · next heq =>
          rcases List.mem_cons.mp he with rfl | h'
          · exact Or.inr heq
          · exact Or.inl (List.mem_cons_of_mem _ h')
      · next =>
          rcases List.mem_cons.mp he with rfl | h'
          · exact Or.inl (List.mem_cons_self _ _)
          · rcases ih d c e h' with h | h
            · exact Or.inl (List.mem_cons_of_mem _ h)
            · exact Or.inr h

lemma setPosting_entries : ∀ (idx : InvIndex) (t : Term) (d : Doc) (c : Nat)
    (p : Term × List (Doc × Nat)), p ∈ setPosting idx t d c →
    ∀ e ∈ p.2, (∃ p', p' ∈ idx ∧ e ∈ p'.2) ∨ e.1 = d := by
  intro idx
  induction idx with
  | nil =>
      intro t d c p hp e he
      simp only [setPosting, List.mem_singleton] at hp
      subst hp
      simp only [List.mem_singleton] at he
      exact Or.inr (by rw [he])
  | cons q rest ih =>
      intro t d c p hp e he
      obtain ⟨t', ds⟩ := q
      simp only [setPosting] at hp
      split at hp
      · next =>
          rcases List.mem_cons.mp hp with rfl | h'
          · rcases setDoc_entries ds d c e he with h | h
            · exact Or.inl ⟨(t', ds), List.mem_cons_self _ _, h⟩
            · exact Or.inr h
          · exact Or.inl ⟨p, List.mem_cons_of_mem _ h', he⟩
      · next =>
          rcases List.mem_cons.mp hp with rfl | h'
          · exact Or.inl ⟨(t', ds), List.mem_cons_self _ _, he⟩
          · rcases ih t d c p h' e he with ⟨p', hp', he'⟩ | h
            · exact Or.inl ⟨p', List.mem_cons_of_mem _ hp', he'⟩
            · exact Or.inr h

lemma foldSetPosting_entries : ∀ (tl : List (Term × Nat)) (idx : InvIndex)
    (d : Doc) (p : Term × List (Doc × Nat)),
    p ∈ tl.foldl (fun i q => setPosting i q.1 d q.2) idx →
    ∀ e ∈ p.2, (∃ p', p' ∈ idx ∧ e ∈ p'.2) ∨ e.1 = d := by
  intro tl
  induction tl with
  | nil => intro idx d p hp e he; exact Or.inl ⟨p, hp, he⟩
  | cons q qs ih =>
      intro idx d p hp e he
      simp only [List.foldl_cons] at hp
      rcases ih (setPosting idx q.1 d q.2) d p hp e he with ⟨p', hp', he'⟩ | h
      · rcases setPosting_entries _ _ _ _ _ hp' e he' with h' | h'
        · exact Or.inl h'
        · exact Or.inr h'
      · exact Or.inr h

lemma pushTerm_entries : ∀ (store : InvIndex) (t : Term)
    (mdocs : List (Doc × Nat)) (p : Term × List (Doc × Nat)),
    p ∈ pushTerm store t mdocs →
    ∀ e ∈ p.2, (∃ p', p' ∈ store ∧ e ∈ p'.2) ∨ e ∈ mdocs := by
  intro store
  induction store with
  | nil =>
      intro t mdocs p hp e he
      simp only [pushTerm, List.mem_singleton] at hp
      subst hp
      exact Or.inr he
  | cons q rest ih =>
      intro t mdocs p hp e he
      obtain ⟨t', ds⟩ := q
      simp only [pushTerm] at hp
      split at hp
      · next =>
          rcases List.mem_cons.mp hp with rfl | h'
          · rcases List.mem_append.mp he with h | h
            · exact Or.inl ⟨(t', ds), List.mem_cons_self _ _, h⟩
            · exact Or.inr h
          · exact Or.inl ⟨p, List.mem_cons_of_mem _ h', he⟩
      · next =>
          rcases List.mem_cons.mp hp with rfl | h'
          · exact Or.inl ⟨(t', ds), List.mem_cons_self _ _, he⟩
          · rcases ih t mdocs p h' e he with ⟨p', hp', he'⟩ | h
            · exact Or.inl ⟨p', List.mem_cons_of_mem _ hp', he'⟩
            · exact Or.inr h

lemma foldPushTerm_entries : ∀ (idx : InvIndex) (store : InvIndex)
    (p : Term × List (Doc × Nat)),
    p ∈ idx.foldl (fun acc q => pushTerm acc q.1 q.2) store →
    ∀ e ∈ p.2, (∃ p', p' ∈ store ∧ e ∈ p'.2) ∨ (∃ p', p' ∈ idx ∧ e ∈ p'.2) := by
  intro idx
  induction idx with
  | nil => intro store p hp e he; exact Or.inl ⟨p, hp, he⟩
  | cons q qs ih =>
      intro store p hp e he
      simp only [List.foldl_cons] at hp
      rcases ih (pushTerm store q.1 q.2) p hp e he with ⟨p', hp', he'⟩ | ⟨p', hp', he'⟩
      · rcases pushTerm_entries _ _ _ _ hp' e he' with h' | h'
        · exact Or.inl h'
        · exact Or.inr ⟨q, List.mem_cons_self _ _, h'⟩
      · exact Or.inr ⟨p', List.mem_cons_of_mem _ hp', he'⟩

lemma termWeight_nonneg (c : Nat) : 0 ≤ termWeight c := by
  unfold termWeight
  split
  · norm_num
  · positivity

lemma one_le_termWeight {c : Nat} (h : 1 ≤ c) : 1 ≤ termWeight c := by
  unfold termWeight
  split
  · norm_num
  · next hne =>
      have hc1 : (1 : ℝ) ≤ (c : ℝ) := by exact_mod_cast h
      have hl := Real.log_nonneg hc1
      nlinarith [hl]

lemma sum_termWeights_nonneg (tl : List (Term × Nat)) :
    0 ≤ (tl.map fun p => termWeight p.2).sum := by
  refine List.sum_nonneg ?_
  intro x hx
  obtain ⟨p, -, rfl⟩ := List.mem_map.mp hx
  exact termWeight_nonneg p.2

lemma one_le_sqrt_sum_termWeights {tl : List (Term × Nat)} (hne : tl ≠ [])
    (h : ∀ p ∈ tl, 1 ≤ p.2) :
    1 ≤ Real.sqrt ((tl.map fun p => termWeight p.2).sum) := by
  cases tl with
  | nil => exact absurd rfl hne
  | cons p ps =>
      have h1 : 1 ≤ termWeight p.2 := one_le_termWeight (h p (List.mem_cons_self _ _))
      have h2 : 0 ≤ ((ps.map fun q => termWeight q.2).sum) := sum_termWeights_nonneg ps
      have hsum : (1 : ℝ) ≤ (((p :: ps).map fun q => termWeight q.2).sum) := by
        simp only [List.map_cons, List.sum_cons]
        linarith
      calc (1 : ℝ) = Real.sqrt 1 := Real.sqrt_one.symm
        _ ≤ _ := Real.sqrt_le_sqrt hsum

lemma storeInv_start (tok : Doc → List (Term × Nat)) : StoreInv tok Collection.start :=
  ⟨fun p hp => absurd hp (List.not_mem_nil p),
   fun q hq => absurd hq (List.not_mem_nil q),
   fun p hp => absurd hp (List.not_mem_nil p),
   fun q hq => absurd hq (List.not_mem_nil q)⟩

lemma storeInv_read (tok : Doc → List (Term × Nat)) (st : Collection) (d : Doc)
    (hc : ∀ p ∈ tok d, 1 ≤ p.2) (hi : StoreInv tok st) :
    StoreInv tok (st.read_document tok d) := by
  obtain ⟨hS1, hS2, hM1, hM2⟩ := hi
  unfold Collection.read_document
  split
  · exact ⟨hS1, hS2, hM1, hM2⟩
  · simp only [add_document_eq]
    by_cases htokd : tok d = []
    · rw [htokd]
      refine ⟨hS1, hS2, ?_, ?_⟩
      · intro p hp e he
        simp only [List.foldl_nil] at hp
        obtain ⟨htok, hsome⟩ := hM1 p hp e he
        exact ⟨htok, lookupFst_append_isSome_left hsome⟩
      · intro q hq
        rcases List.mem_append.mp hq with h | h
        · exact hM2 q h
        · simp only [List.mem_singleton] at h
          subst h
          exact Or.inl htokd
    · refine ⟨hS1, hS2, ?_, ?_⟩
      · intro p hp e he
        rcases foldSetPosting_entries (tok d) st.index d p hp e he with ⟨p', hp', he'⟩ | hkey
        · obtain ⟨htok, hsome⟩ := hM1 p' hp' e he'
          exact ⟨htok, lookupFst_append_isSome_left hsome⟩
        · rw [hkey]
          refine ⟨htokd, ?_⟩
          cases hl : lookupFst st.documents d with
          | some v => exact lookupFst_append_isSome_left (by rw [hl]; rfl)
          | none =>
              rw [lookupFst_append_none _ hl]
              simp [lookupFst]
      · intro q hq
        rcases List.mem_append.mp hq with h | h
        · exact hM2 q h
        · simp only [List.mem_singleton] at h
          subst h
          exact Or.inr (one_le_sqrt_sum_termWeights htokd hc)

lemma storeInv_flush (tok : Doc → List (Term × Nat)) (st : Collection)
    (hi : StoreInv tok st) : StoreInv tok st.flush_to_mongo := by
  obtain ⟨hS1, hS2, hM1, hM2⟩ := hi
  unfold Collection.flush_to_mongo
  split
  · refine ⟨?_, ?_, ?_, ?_⟩
    · intro p hp e he
      rcases foldPushTerm_entries st.index st.storeIndex p hp e he with
        ⟨p', hp', he'⟩ | ⟨p', hp', he'⟩
      · obtain ⟨htok, hsome⟩ := hS1 p' hp' e he'
        exact ⟨htok, lookupFst_append_isSome_left hsome⟩
      · obtain ⟨htok, hsome⟩ := hM1 p' hp' e he'
        exact ⟨htok, lookupFst_append_isSome_right hsome⟩
    · intro q hq
      rcases List.mem_append.mp hq with h | h
      · exact hS2 q h
      · exact hM2 q h
    · intro p hp
      exact absurd hp (List.not_mem_nil p)
    · intro q hq
      exact absurd hq (List.not_mem_nil q)
  · refine ⟨hS1, hS2, ?_, ?_⟩
    · intro p hp
      exact absurd hp (List.not_mem_nil p)
    · intro q hq
      exact absurd hq (List.not_mem_nil q)

lemma reachable_storeInv {tok : Doc → List (Term × Nat)} {st : Collection}
    (h : Reachable tok st) : StoreInv tok st := by
  induction h with
  | base => exact storeInv_start tok
  | read st d h hc ih => exact storeInv_read tok st d hc ih
  | flush st h ih => exact storeInv_flush tok st ih

lemma bump_keys (d : Doc) (x : ℝ) : ∀ (S : List (Doc × ℝ)) (p : Doc × ℝ),
    p ∈ bump S d x → p.1 = d ∨ p.1 ∈ S.map Prod.fst := by
  intro S
  induction S with
  | nil =>
      intro p hp
      simp only [bump, List.mem_singleton] at hp
      exact Or.inl (by rw [hp])
  | cons q rest ih =>
      intro p hp
      obtain ⟨d', v'⟩ := q
      simp only [bump] at hp
      split at hp
      · next heq =>
          rcases List.mem_cons.mp hp with rfl | hp'
          · exact Or.inl heq
          · exact Or.inr (by
              simp only [List.map_cons]
              exact List.mem_cons_of_mem _ (List.mem_map_of_mem Prod.fst hp'))
      · next =>
          rcases List.mem_cons.mp hp with rfl | hp'
          · exact Or.inr (by simp)
          · rcases ih p hp' with h | h
            · exact Or.inl h
            · exact Or.inr (by
                simp only [List.map_cons]
                exact List.mem_cons_of_mem _ h)

lemma foldl_bump_keys (g : Doc × Nat → ℝ) : ∀ (docs : List (Doc × Nat))
    (S : List (Doc × ℝ)) (p : Doc × ℝ),
    p ∈ docs.foldl (fun acc e => bump acc e.1 (g e)) S →
    p.1 ∈ S.map Prod.fst ∨ ∃ e ∈ docs, e.1 = p.1 := by
  intro docs
  induction docs with
  | nil => intro S p hp; exact Or.inl (List.mem_map_of_mem Prod.fst hp)
  | cons e es ih =>
      intro S p hp
      simp only [List.foldl_cons] at hp
      rcases ih (bump S e.1 (g e)) p hp with hL | ⟨e', he', hk⟩
      · obtain ⟨q, hq, hqk⟩ := List.mem_map.mp hL
        rcases bump_keys e.1 (g e) S q hq with h | h
        · exact Or.inr ⟨e, List.mem_cons_self _ _, by rw [h] at hqk; exact hqk⟩
        · exact Or.inl (by rw [← hqk]; exact h)
      · exact Or.inr ⟨e', List.mem_cons_of_mem _ he', hk⟩


lemma accumulateScores_ok_facts : ∀ (q : List Term) (st : Collection)
    (S₀ S : List (Doc × ℝ)) (st' : Collection),
    accumulateScores st q S₀ = .ok (S, st') →
    st' = st ∧ ∀ p ∈ S, p.1 ∈ S₀.map Prod.fst
      ∨ ∃ pr, pr ∈ st.storeIndex ∧ ∃ e ∈ pr.2, e.1 = p.1 := by
  intro q
  induction q with
  | nil =>
      intro st S₀ S st' h
      simp only [accumulateScores] at h
      cases h
      exact ⟨rfl, fun p hp => Or.inl (List.mem_map_of_mem Prod.fst hp)⟩
  | cons t ts ih =>
      intro st S₀ S st' h
      simp only [accumulateScores, Collection.get_documents_count,
        Collection.get_index_count] at h
      cases hg : st.get_documents_for_term t with
      | error e => rw [hg] at h; cases h
      | ok pr =>
          obtain ⟨docs, stm⟩ := pr
          obtain ⟨hstm, hlk⟩ := get_documents_for_term_ok hg
          subst hstm
          rw [hg] at h
          obtain ⟨hst, hmem⟩ := ih stm _ S st' h
          refine ⟨hst, ?_⟩
          intro p hp
          rcases hmem p hp with hkey | hidx
          · obtain ⟨q', hq', hqk⟩ := List.mem_map.mp hkey
            rcases foldl_bump_keys _ docs S₀ q' hq' with h' | ⟨e, he, hk⟩
            · exact Or.inl (by rw [← hqk]; exact h')
            · exact Or.inr ⟨(t, docs), lookupFst_mem hlk, e, he, by rw [hk, hqk]⟩
          · exact Or.inr hidx

/-- Claim C9: over any state built from a fresh Collection solely by
read_document calls whose tokenizations have all counts at least 1 (and
flushes), every document that accumulates a score in the first loop of
processquery_vector has a stored norm record whose L_d is positive (in
fact at least 1), so the normalization loop never divides by zero. -/
theorem c9_no_division_by_zero (tok : Doc → List (Term × Nat)) (st : Collection)
    (hr : Reachable tok st) (q : List Term) (S : List (Doc × ℝ)) (st1 : Collection)
    (hacc : accumulateScores st q [] = .ok (S, st1)) :
    ∀ p ∈ S, ∃ L st2, st1.get_document_L_d p.1 = Except.ok (L, st2) ∧ 0 < L := by
  obtain ⟨hst, hmem⟩ := accumulateScores_ok_facts q st [] S st1 hacc
  subst hst
  intro p hp
  rcases hmem p hp with hkey | ⟨pr, hpr, e, he, hkey⟩
  · simp at hkey
  · obtain ⟨hS1, hS2, -, -⟩ := reachable_storeInv hr
    obtain ⟨htok, hsome⟩ := hS1 pr hpr e he
    obtain ⟨L, hL⟩ := Option.isSome_iff_exists.mp hsome
    have hmemL := lookupFst_mem hL
    have h1L : 1 ≤ L := by
      rcases hS2 (e.1, L) hmemL with h | h
      · exact absurd h htok
      · exact h
    refine ⟨L, st1, ?_, by linarith⟩
    unfold Collection.get_document_L_d
    rw [← hkey, hL]

/-- Witness for C9: in the flushed one-document corpus, the document
scored by the query on term a has a positive stored norm. -/
theorem c9_no_division_by_zero_witness :
    ∃ L st2, stAB.get_document_L_d "d1" = Except.ok (L, st2) ∧ 0 < L := by
  have hr : Reachable tokAB stAB :=
    Reachable.flush _ (Reachable.read _ _ Reachable.base (by decide))
  have hacc : accumulateScores stAB ["a"] [] = .ok ([("d1", Real.log 3)], stAB) := by
    simp [stAB_eq, accumulateScores, Collection.get_documents_count,
      Collection.get_index_count, Collection.get_documents_for_term, lookupFst, bump]
    norm_num
  have h := c9_no_division_by_zero tokAB stAB hr ["a"] _ _ hacc
    ("d1", Real.log 3) (List.mem_singleton.mpr rfl)
  simpa using h

lemma evalQueryS_state : ∀ (q : BoolQuery) (st : Collection),
    (evalQueryS st q).2 = st := by
  intro q
  induction q with
  | term t =>
      intro st
      rw [evalQueryS]
      unfold Collection.get_only_documents_for_term
      split <;> rfl
  | and a b iha ihb =>
      intro st
      show (evalQueryS (evalQueryS st a).2 b).2 = st
      rw [ihb, iha]
  | or a b iha ihb =>
      intro st
      show (evalQueryS (evalQueryS st a).2 b).2 = st
      rw [ihb, iha]
  | not a iha =>
      intro st
      show (evalQueryS st a).2 = st
      exact iha st

lemma normalizeScores_ok_state : ∀ (S : List (Doc × ℝ)) (st : Collection)
    (Sn : List (Doc × ℝ)) (st' : Collection),
    normalizeScores st S = .ok (Sn, st') → st' = st := by
  intro S
  induction S with
  | nil =>
      intro st Sn st' h
      simp only [normalizeScores] at h
      cases h
      rfl
  | cons p rest ih =>
      intro st Sn st' h
      simp only [normalizeScores] at h
      split at h
      · cases h
      · rename_i L stm heq
        obtain ⟨hstm, -⟩ := get_document_L_d_ok heq
        split at h
        · cases h
        · rename_i tail st2 heq2
          cases h
          rw [ih _ _ _ heq2]
          exact hstm

/-- Claim C10: query evaluation is read-only on the in-memory tables: the
boolean engine returns the state with self.index and self.documents
unchanged, and whenever the vector engine completes it likewise leaves
both in-memory tables unchanged. -/
theorem c10_queries_read_only (st : Collection) (bq : BoolQuery)
    (q : List Term) (above : ℝ) (top : ℤ) :
    ((st.processquery_boolean bq).2.index = st.index
      ∧ (st.processquery_boolean bq).2.documents = st.documents)
    ∧ ∀ res st', st.processquery_vector q above top = .ok (res, st') →
        st'.index = st.index ∧ st'.documents = st.documents := by
  constructor
  · rw [show st.processquery_boolean bq = evalQueryS st bq from rfl,
      evalQueryS_state bq st]
    exact ⟨rfl, rfl⟩
  · intro res st' h
    simp only [Collection.processquery_vector] at h
    split at h
    · cases h
    · rename_i S st1 ha
      split at h
      · cases h
      · rename_i Sn st2 hn
        cases h
        have h1 := (accumulateScores_ok_facts q st [] S st1 ha).1
        have h2 := normalizeScores_ok_state _ _ _ _ hn
        rw [h2, h1]
        exact ⟨rfl, rfl⟩

/-- Witness for C10: a concrete boolean query and a concrete completed
vector query on the flushed one-document corpus leave the in-memory
tables unchanged. -/
theorem c10_queries_read_only_witness :
    (stAB.processquery_boolean (BoolQuery.term "a")).2.documents = stAB.documents
    ∧ ∃ res st', stAB.processquery_vector ["a"] 0 (-1) = Except.ok (res, st')
        ∧ st'.index = stAB.index ∧ st'.documents = stAB.documents := by
  obtain ⟨⟨-, hbdoc⟩, hvec⟩ :=
    c10_queries_read_only stAB (BoolQuery.term "a") ["a"] 0 (-1)
  refine ⟨hbdoc, ?_⟩
  have hok : stAB.processquery_vector ["a"] 0 (-1)
      = Except.ok ([("d1", Real.log 3 / Real.sqrt 2)], stAB) := by
    simp [stAB_eq, Collection.processquery_vector, accumulateScores,
      normalizeScores, selectResults, Collection.get_documents_count,
      Collection.get_index_count, Collection.get_documents_for_term,
      Collection.get_document_L_d, lookupFst, bump]
    norm_num
  exact ⟨_, _, hok, hvec _ _ hok⟩
